import Mathlib

/-!
# Verification of the `wordle` crate's solving engine

Shallow embedding of the core of `src/wordle`:
* `Correctness.compute` (src/wordle/src/lib.rs) — Wordle's feedback rule,
* `Guess.matches` (src/wordle/src/lib.rs) — the pruning predicate,
* `Wordle.play` (src/wordle/src/lib.rs) — the game driver loop,
* `WordleSolver::guess` (src/wordle/src/algorithm.rs) — the entropy scorer with
  its destructive shared-pattern-list optimisation,
* the `Naive` variant (src/wordle/src/algorithms/naive.rs).

A `Word` is a five-byte array `[u8; 5]`, embedded as `Fin 5 → Nat`.
Floating-point (`f64`) score arithmetic is modelled over `ℝ` with `Real.logb 2`
for `f64::log2`.
-/

/-- Rust `[u8; 5]` (`pub type Word = [u8; 5];` in lib.rs). Bytes as `Nat`. -/
def Word : Type := Fin 5 → Nat

instance : DecidableEq Word := fun a b => Fintype.decidablePiFintype a b

/-- Builds a concrete five-byte word. -/
def mkW (b0 b1 b2 b3 b4 : Nat) : Word := ![b0, b1, b2, b3, b4]

/-- The `Correctness` enum of lib.rs: Correct (green), Misplaced (yellow), Wrong. -/
inductive Correctness : Type
  | Correct
  | Misplaced
  | Wrong
  deriving DecidableEq, Repr

/-- A five-position feedback pattern `[Correctness; 5]`. -/
def Pattern : Type := Fin 5 → Correctness

instance : DecidableEq Pattern := fun a b => Fintype.decidablePiFintype a b

instance : Fintype Correctness :=
  ⟨⟨{.Correct, .Misplaced, .Wrong}, by decide⟩, fun c => by cases c <;> decide⟩

instance : Fintype Pattern := Pi.fintype

/-- Builds a concrete pattern. -/
def mkP (c0 c1 c2 c3 c4 : Correctness) : Pattern := ![c0, c1, c2, c3, c4]

namespace Correctness

/-- Pass 1 of `Correctness::compute`: position `i` is marked `Correct` and
consumed exactly when `answer[i] == guess[i]`; everything else starts `Wrong`
and unconsumed. -/
def pass1 (answer guess : Word) : (Fin 5 → Correctness) × (Fin 5 → Bool) :=
  (fun i => if answer i = guess i then .Correct else .Wrong,
   fun i => decide (answer i = guess i))

/-- The `answer.iter().enumerate().any(...)` scan of pass 2: the first answer
position `j` with `answer[j] == x` that is not yet consumed, if any. -/
def findUnused (answer : Word) (x : Nat) (used : Fin 5 → Bool) : Option (Fin 5) :=
  (List.finRange 5).find? (fun j => decide (answer j = x) && !used j)

/-- One iteration of pass 2 of `Correctness::compute` at guess position `i`:
skip positions already `Correct`; otherwise mark `Misplaced` and consume the
first unconsumed answer position holding `guess[i]`, when one exists. -/
def pass2Step (answer guess : Word) (st : (Fin 5 → Correctness) × (Fin 5 → Bool))
    (i : Fin 5) : (Fin 5 → Correctness) × (Fin 5 → Bool) :=
  if st.1 i = .Correct then st
  else
    match findUnused answer (guess i) st.2 with
    | some j => (Function.update st.1 i .Misplaced, Function.update st.2 j true)
    | none => st

/-- `Correctness::compute` (lib.rs): pass 1 marks greens, then pass 2 walks the
guess left to right assigning yellows by the first-unconsumed rule. -/
def compute (answer guess : Word) : Pattern :=
  ((List.finRange 5).foldl (pass2Step answer guess) (pass1 answer guess)).1

end Correctness

/-- The verdict alphabet in the order used by `Correctness::permutations`. -/
def Correctness.alphabet : List Correctness := [.Correct, .Misplaced, .Wrong]

/-- `Correctness::permutations` (lib.rs): `itertools::iproduct!` over five
copies of `[Correct, Misplaced, Wrong]`, last coordinate cycling fastest. -/
def Correctness.permutations : List Pattern :=
  Correctness.alphabet.flatMap fun v0 =>
    Correctness.alphabet.flatMap fun v1 =>
      Correctness.alphabet.flatMap fun v2 =>
        Correctness.alphabet.flatMap fun v3 =>
          Correctness.alphabet.map fun v4 => mkP v0 v1 v2 v3 v4

/-- The `Guess` struct of lib.rs: an observation pairing a guessed word with
the feedback mask returned for it. -/
structure Guess where
  word : Word
  mask : Pattern

/-- `Guess::matches` (lib.rs): candidate `word` is consistent with the
observation when recomputing feedback with `word` as answer reproduces the
recorded mask. -/
def Guess.matches (g : Guess) (word : Word) : Bool :=
  decide (Correctness.compute word g.word = g.mask)

/-- The loop body of `Wordle::play` (lib.rs), with explicit fuel (turns left),
current turn index `i`, guesser state `s` and accumulated history. A failed
`assert!(self.dictionary.contains(&guess))` is modelled as `.error i`. -/
def Wordle.playFrom {σ : Type} (dict : List Word) (answer : Word)
    (step : σ → List Guess → Word × σ) :
    Nat → Nat → σ → List Guess → Except Nat (Option Nat)
  | 0, _, _, _ => .ok none
  | fuel + 1, i, s, hist =>
    let gs := step s hist
    if gs.1 = answer then .ok (some i)
    else if gs.1 ∈ dict then
      Wordle.playFrom dict answer step fuel (i + 1) gs.2
        (hist ++ [⟨gs.1, Correctness.compute answer gs.1⟩])
    else .error i

/-- `Wordle::play` (lib.rs): up to 32 turns, starting at turn 1 with empty
history. `dict` is the `Wordle.dictionary` field; the guesser (`&mut self`)
is modelled as a state type `σ` with a step function. -/
def Wordle.play {σ : Type} (dict : List Word) (answer : Word)
    (step : σ → List Guess → Word × σ) (s0 : σ) : Except Nat (Option Nat) :=
  Wordle.playFrom dict answer step 32 1 s0 []

/-- The word `"crate"`, WordleSolver's opener (algorithm.rs). -/
def wCrate : Word := mkW 2 17 0 19 4

/-- The word `"tares"`, the Naive variant's opener (algorithms/naive.rs). -/
def wTares : Word := mkW 19 0 17 4 18

/-- The inner loop of `WordleSolver::guess` (algorithm.rs lines 57–64):
the total count of remaining candidates whose feedback against scored word
`w` equals `pattern` — each matching candidate contributes its own count. -/
def inPatternTotal (remaining : List (Word × Nat)) (w : Word) (p : Pattern) : Nat :=
  remaining.foldl
    (fun acc cand => if (Guess.mk w p).matches cand.1 then acc + cand.2 else acc) 0

/-- The spec's `S(w, p)`: the sum of `count(c)` over remaining candidates `c`
with `feedback(c, w) == p` (spec §4.3). -/
def specS (remaining : List (Word × Nat)) (w : Word) (p : Pattern) : Nat :=
  ((remaining.filter fun cand => decide (Correctness.compute cand.1 w = p)).map
    Prod.snd).sum

/-- The inner loop of `Naive::guess` (algorithms/naive.rs lines 50–59): it
iterates the remaining *words* and adds `count` — the count of the scored
word `w` — for every matching candidate. -/
def naiveInPatternTotal (remainingWords : List Word) (w : Word) (count : Nat)
    (p : Pattern) : Nat :=
  remainingWords.foldl
    (fun acc cand => if (Guess.mk w p).matches cand then acc + count else acc) 0

/-- The `Candidate` struct of algorithm.rs: a word and its goodness score. -/
structure Candidate where
  word : Word
  goodness : ℝ

/-- The `self.patterns.retain(...)` call of algorithm.rs for one scored word:
walks the shared pattern list in order, drops patterns whose in-pattern total
is zero, and accumulates `Σ p·log2 p` over the kept ones. Returns the
accumulated sum and the retained list. `f64` arithmetic is modelled over `ℝ`. -/
noncomputable def wordScore (remaining : List (Word × Nat)) (N : Nat) (w : Word) :
    List Pattern → ℝ × List Pattern
  | [] => (0, [])
  | p :: ps =>
    let t := inPatternTotal remaining w p
    let rest := wordScore remaining N w ps
    if t = 0 then rest
    else
      (((t : ℝ) / (N : ℝ)) * Real.logb 2 ((t : ℝ) / (N : ℝ)) + rest.1,
       p :: rest.2)

/-- One iteration of the scoring loop of `WordleSolver::guess` over a
candidate word: score it against the current shared pattern list (mutating
that list), weight by `count/N`, and keep it as `best` on strict
improvement. -/
noncomputable def scoreStep (remaining : List (Word × Nat)) (N : Nat)
    (acc : Option Candidate × List Pattern) (cand : Word × Nat) :
    Option Candidate × List Pattern :=
  let sp := wordScore remaining N cand.1 acc.2
  let goodness : ℝ := -sp.1 * ((cand.2 : ℝ) / (N : ℝ))
  match acc.1 with
  | some c =>
      if goodness > c.goodness then (some ⟨cand.1, goodness⟩, sp.2)
      else (some c, sp.2)
  | none => (some ⟨cand.1, goodness⟩, sp.2)

/-- `WordleSolver::guess` (algorithm.rs): `remaining` and `patterns` are the
solver's state fields. Empty history returns `"crate"`; otherwise the
candidate set is pruned by the last observation and every surviving word is
scored, threading the shared pattern list through the loop. The final
`best.unwrap()` on an empty candidate set is modelled as `.error ()`. -/
noncomputable def WordleSolver.guess (remaining : List (Word × Nat))
    (patterns : List Pattern) (history : List Guess) : Except Unit Word :=
  if history.isEmpty then .ok wCrate
  else
    match history.getLast? with
    | none => .ok wCrate
    | some last =>
      let rem := remaining.filter fun cand => last.matches cand.1
      let N := (rem.map Prod.snd).sum
      match (rem.foldl (scoreStep rem N) (none, patterns)).1 with
      | some c => .ok c.word
      | none => .error ()

/-- The reference per-word score (spec §4.3): iterate all 243 patterns,
summing `P(w,p)·log2 P(w,p)` over exactly the patterns with `S(w,p) > 0`. -/
noncomputable def refSum (remaining : List (Word × Nat)) (N : Nat) (w : Word) :
    List Pattern → ℝ
  | [] => 0
  | p :: ps =>
    let t := inPatternTotal remaining w p
    let rest := refSum remaining N w ps
    if t = 0 then rest
    else ((t : ℝ) / (N : ℝ)) * Real.logb 2 ((t : ℝ) / (N : ℝ)) + rest

/-- One iteration of the reference scoring loop: identical goodness and
tie-breaking, but every word is scored over the full 243-pattern universe. -/
noncomputable def refStep (remaining : List (Word × Nat)) (N : Nat)
    (acc : Option Candidate) (cand : Word × Nat) : Option Candidate :=
  let goodness : ℝ :=
    -(refSum remaining N cand.1 Correctness.permutations) * ((cand.2 : ℝ) / (N : ℝ))
  match acc with
  | some c => if goodness > c.goodness then some ⟨cand.1, goodness⟩ else some c
  | none => some ⟨cand.1, goodness⟩

/-- The reference semantics of the solver (spec §4.3): as `WordleSolver.guess`
but with each candidate scored by iterating over all 243 patterns. -/
noncomputable def refGuess (remaining : List (Word × Nat))
    (history : List Guess) : Except Unit Word :=
  if history.isEmpty then .ok wCrate
  else
    match history.getLast? with
    | none => .ok wCrate
    | some last =>
      let rem := remaining.filter fun cand => last.matches cand.1
      let N := (rem.map Prod.snd).sum
      match rem.foldl (refStep rem N) none with
      | some c => .ok c.word
      | none => .error ()

/-- Whether pattern `p` has a non-zero in-pattern total for scored word `w`:
the retention predicate of the `patterns.retain` call. -/
def nzb (remaining : List (Word × Nat)) (w : Word) (p : Pattern) : Bool :=
  !decide (inPatternTotal remaining w p = 0)

/-- The per-pattern entropy contribution `P(w,p) · log2 P(w,p)`. -/
noncomputable def phi (remaining : List (Word × Nat)) (N : Nat) (w : Word)
    (p : Pattern) : ℝ :=
  ((inPatternTotal remaining w p : ℝ) / (N : ℝ)) *
    Real.logb 2 ((inPatternTotal remaining w p : ℝ) / (N : ℝ))

/-- Sum of `phi` over a pattern list, in traversal order. -/
noncomputable def sumPhi (remaining : List (Word × Nat)) (N : Nat) (w : Word)
    (ps : List Pattern) : ℝ :=
  ps.foldr (fun p acc => phi remaining N w p + acc) 0

/-- Modelled from the spec: the bundled `dictionary.txt` asset is not part of
the source tree under `src/`. Per spec §4.3 the opening word "must be present
in the dictionary" and both historical openers (`crate`, `tares`) appear in
the source; the dictionary's word list is modelled as both openers plus an
unspecified remainder. -/
def bundledDictionary (rest : List Word) : List Word := wCrate :: wTares :: rest

/-- The per-word pattern loop of `Naive::guess` (naive.rs): iterate the full
enumeration, `continue` on a zero total (no retention), accumulate
`Σ p·log2 p` using the naive in-pattern total. -/
noncomputable def naiveSum (remainingWords : List Word) (N : Nat) (w : Word)
    (count : Nat) : List Pattern → ℝ
  | [] => 0
  | p :: ps =>
    let t := naiveInPatternTotal remainingWords w count p
    let rest := naiveSum remainingWords N w count ps
    if t = 0 then rest
    else ((t : ℝ) / (N : ℝ)) * Real.logb 2 ((t : ℝ) / (N : ℝ)) + rest

/-- One iteration of the scoring loop of `Naive::guess`: goodness is the pure
(unweighted) entropy `-sum`. -/
noncomputable def naiveStep (remaining : List (Word × Nat)) (N : Nat)
    (acc : Option Candidate) (cand : Word × Nat) : Option Candidate :=
  let goodness : ℝ :=
    -(naiveSum (remaining.map Prod.fst) N cand.1 cand.2 Correctness.permutations)
  match acc with
  | some c => if goodness > c.goodness then some ⟨cand.1, goodness⟩ else some c
  | none => some ⟨cand.1, goodness⟩

/-- `Naive::guess` (algorithms/naive.rs): empty history opens with `"tares"`;
otherwise prune by the last observation and score every survivor. The
`HashMap` working set is modelled as an association list in some iteration
order. `best.unwrap()` on an empty set is modelled as `.error ()`. -/
noncomputable def Naive.guess (remaining : List (Word × Nat))
    (history : List Guess) : Except Unit Word :=
  if history.isEmpty then .ok wTares
  else
    match history.getLast? with
    | none => .ok wTares
    | some last =>
      let rem := remaining.filter fun cand => last.matches cand.1
      let N := (rem.map Prod.snd).sum
      match rem.foldl (naiveStep rem N) none with
      | some c => .ok c.word
      | none => .error ()

/-- The truthful run of a stateful guesser against a fixed answer: after `n`
turns the guesser state and the history of feedback observations, each turn's
entry being `(guess, compute answer guess)`. -/
def runState {σ : Type} (answer : Word) (step : σ → List Guess → Word × σ)
    (s0 : σ) : Nat → σ × List Guess
  | 0 => (s0, [])
  | n + 1 =>
    let rs := runState answer step s0 n
    let gs := step rs.1 rs.2
    (gs.2, rs.2 ++ [⟨gs.1, Correctness.compute answer gs.1⟩])

/-- The guesser's `i`-th guess (1-indexed) in the truthful run. -/
def nthGuess {σ : Type} (answer : Word) (step : σ → List Guess → Word × σ)
    (s0 : σ) (i : Nat) : Word :=
  (step (runState answer step s0 (i - 1)).1 (runState answer step s0 (i - 1)).2).1

/-- The word `"aaaaa"` (bytes as letter indices), used in concrete runs. -/
def wA5 : Word := mkW 0 0 0 0 0

/-- The word `"bbbbb"`. -/
def wB5 : Word := mkW 1 1 1 1 1

/-- The word `"ababa"`. -/
def wABABA : Word := mkW 0 1 0 1 0

/-- The word `"zzzzz"`. -/
def wZ5 : Word := mkW 25 25 25 25 25

/-- The all-`Wrong` pattern. -/
def pW5 : Pattern := mkP .Wrong .Wrong .Wrong .Wrong .Wrong

/-- The all-`Correct` pattern. -/
def pC5 : Pattern := mkP .Correct .Correct .Correct .Correct .Correct


/-- The pattern `C W C W C`. -/
def pCWCWC : Pattern := mkP .Correct .Wrong .Correct .Wrong .Correct

/-- The pattern `W C W C W`. -/
def pWCWCW : Pattern := mkP .Wrong .Correct .Wrong .Correct .Wrong

/-- A concrete candidate set exercising the shared-pattern-list retention:
`aaaaa` and `bbbbb` with count 1, `ababa` with count 2. -/
def exRemaining : List (Word × Nat) := [(wA5, 1), (wB5, 1), (wABABA, 2)]

/-- A concrete one-observation history (guess `zzzzz`, all `Wrong`) admitting
every word of `exRemaining`. -/
def exHistory : List Guess := [⟨wZ5, pW5⟩]

/-! ## Basic structural lemmas about the feedback function -/

lemma pass1_correct_iff (a g : Word) (i : Fin 5) :
    (Correctness.pass1 a g).1 i = .Correct ↔ a i = g i := by
  by_cases h : a i = g i <;> simp [Correctness.pass1, h]

lemma pass2Step_correct_iff (a g : Word)
    (st : (Fin 5 → Correctness) × (Fin 5 → Bool))
    (hst : ∀ i, st.1 i = .Correct ↔ a i = g i) (i0 : Fin 5) :
    ∀ i, (Correctness.pass2Step a g st i0).1 i = .Correct ↔ a i = g i := by
  intro i
  unfold Correctness.pass2Step
  by_cases h : st.1 i0 = .Correct
  · simpa [h] using hst i
  · rw [if_neg h]
    cases hfind : Correctness.findUnused a (g i0) st.2 with
    | none => exact hst i
    | some j =>
      simp only
      by_cases hi : i = i0
      · subst hi
        rw [Function.update_same]
        constructor
        · intro hM; exact absurd hM (by decide)
        · intro hag; exact absurd ((hst i).mpr hag) h
      · rw [Function.update_noteq hi]; exact hst i

lemma foldl_pass2_correct_iff (a g : Word) (l : List (Fin 5))
    (st : (Fin 5 → Correctness) × (Fin 5 → Bool))
    (hst : ∀ i, st.1 i = .Correct ↔ a i = g i) :
    ∀ i, (l.foldl (Correctness.pass2Step a g) st).1 i = .Correct ↔ a i = g i := by
  induction l generalizing st with
  | nil => exact hst
  | cons x xs ih =>
      exact ih (Correctness.pass2Step a g st x) (pass2Step_correct_iff a g st hst x)

lemma compute_correct_iff (a g : Word) (i : Fin 5) :
    Correctness.compute a g i = .Correct ↔ a i = g i :=
  foldl_pass2_correct_iff a g (List.finRange 5) (Correctness.pass1 a g)
    (pass1_correct_iff a g) i

/-- C1. `Correctness::compute` implements Wordle's duplicate-letter rule:
greens are exactly the positions where guess and answer agree (pass 1, and
pass 2 never creates or destroys a green), and all nine worked cases of
spec §4.1 hold (letters encoded a=0, b=1, …, z=25). -/
theorem C1_compute_duplicate_rule :
    (∀ a g : Word, ∀ i : Fin 5, Correctness.compute a g i = .Correct ↔ a i = g i)
    ∧ Correctness.compute (mkW 0 1 2 3 4) (mkW 0 1 2 3 4)
        = mkP .Correct .Correct .Correct .Correct .Correct
    ∧ Correctness.compute (mkW 0 1 2 3 4) (mkW 5 6 7 8 9)
        = mkP .Wrong .Wrong .Wrong .Wrong .Wrong
    ∧ Correctness.compute (mkW 0 1 2 3 4) (mkW 4 0 1 2 3)
        = mkP .Misplaced .Misplaced .Misplaced .Misplaced .Misplaced
    ∧ Correctness.compute (mkW 0 0 1 1 1) (mkW 0 0 2 2 2)
        = mkP .Correct .Correct .Wrong .Wrong .Wrong
    ∧ Correctness.compute (mkW 0 0 1 1 1) (mkW 2 2 0 0 2)
        = mkP .Wrong .Wrong .Misplaced .Misplaced .Wrong
    ∧ Correctness.compute (mkW 0 0 1 1 1) (mkW 2 0 0 2 2)
        = mkP .Wrong .Correct .Misplaced .Wrong .Wrong
    ∧ Correctness.compute (mkW 0 25 25 0 25) (mkW 0 0 0 1 1)
        = mkP .Correct .Misplaced .Wrong .Wrong .Wrong
    ∧ Correctness.compute (mkW 1 0 2 2 2) (mkW 0 0 3 3 3)
        = mkP .Wrong .Correct .Wrong .Wrong .Wrong
    ∧ Correctness.compute (mkW 0 1 2 3 4) (mkW 0 0 2 3 4)
        = mkP .Correct .Wrong .Correct .Correct .Correct :=
  ⟨compute_correct_iff, by decide, by decide, by decide, by decide, by decide,
   by decide, by decide, by decide, by decide⟩

/-- C3. Round trip of the pruning predicate: the observation produced
truthfully from answer `a` always admits `a`; consequently the solver's
`retain` with a truthful last observation never removes the answer from the
candidate set. -/
theorem C3_roundtrip_no_prune_of_answer :
    (∀ a g : Word, (Guess.mk g (Correctness.compute a g)).matches a = true)
    ∧ ∀ (remaining : List (Word × Nat)) (answer g : Word) (c : Nat),
        (answer, c) ∈ remaining →
        (answer, c) ∈ remaining.filter
          (fun cand => (Guess.mk g (Correctness.compute answer g)).matches cand.1) := by
  constructor
  · intro a g
    simp [Guess.matches]
  · intro remaining answer g c hmem
    exact List.mem_filter.mpr ⟨hmem, by simp [Guess.matches]⟩

/-- C3 witness at a concrete input. -/
theorem C3_roundtrip_no_prune_of_answer_witness :
    (wA5, 1) ∈ ([(wA5, 1), (wB5, 2)].filter
      (fun cand => (Guess.mk wB5 (Correctness.compute wA5 wB5)).matches cand.1)) :=
  C3_roundtrip_no_prune_of_answer.2 [(wA5, 1), (wB5, 2)] wA5 wB5 1 (by simp)

/-! ## The in-pattern total -/

lemma inPatternTotal_foldl_eq (w : Word) (p : Pattern) :
    ∀ (l : List (Word × Nat)) (acc : Nat),
      l.foldl
        (fun acc cand => if (Guess.mk w p).matches cand.1 then acc + cand.2 else acc)
        acc = acc + specS l w p := by
  intro l
  induction l with
  | nil => intro acc; simp [specS]
  | cons c cs ih =>
      intro acc
      by_cases h : (Guess.mk w p).matches c.1
      · have hd : decide (Correctness.compute c.1 w = p) = true := by
          simpa [Guess.matches] using h
        rw [List.foldl_cons, if_pos h, ih]
        have hs : specS (c :: cs) w p = c.2 + specS cs w p := by
          simp [specS, List.filter_cons, hd]
        rw [hs]
        omega
      · have hd : ¬(decide (Correctness.compute c.1 w = p) = true) := by
          simpa [Guess.matches] using h
        rw [List.foldl_cons, if_neg h, ih]
        have hs : specS (c :: cs) w p = specS cs w p := by
          simp [specS, List.filter_cons, hd]
        rw [hs]

lemma inPatternTotal_eq_specS (remaining : List (Word × Nat)) (w : Word)
    (p : Pattern) : inPatternTotal remaining w p = specS remaining w p := by
  simpa [inPatternTotal] using inPatternTotal_foldl_eq w p remaining 0

/-- C4. The in-pattern total of `WordleSolver::guess`'s scoring loop equals
the spec's `S(w, p)` — each matching candidate contributes its own count —
whereas the dead `Naive::guess` loop adds the scored word's count instead:
at remaining = {aaaaa↦1, bbbbb↦2}, scored word bbbbb, pattern `WWWWW`, the
naive loop yields 2 while `S` is 1. -/
theorem C4_in_pattern_total :
    (∀ (remaining : List (Word × Nat)) (w : Word) (p : Pattern),
      inPatternTotal remaining w p = specS remaining w p)
    ∧ naiveInPatternTotal [wA5, wB5] wB5 2 pW5 = 2
    ∧ specS [(wA5, 1), (wB5, 2)] wB5 pW5 = 1 :=
  ⟨inPatternTotal_eq_specS, by decide, by decide⟩

/-- C6. When pruning by the last observation empties the candidate set,
`WordleSolver::guess` takes the error branch (the `best.unwrap()` panic on
`None`) and returns no word. -/
theorem C6_empty_candidate_set (remaining : List (Word × Nat))
    (patterns : List Pattern) (history : List Guess) (last : Guess)
    (hlast : history.getLast? = some last)
    (hempty : remaining.filter (fun cand => last.matches cand.1) = []) :
    WordleSolver.guess remaining patterns history = .error () := by
  cases history with
  | nil => simp at hlast
  | cons a t =>
      simp only [WordleSolver.guess, List.isEmpty_cons, Bool.false_eq_true,
        if_false, hlast, hempty, List.foldl_nil]

/-- C6 witness: a concrete pruning that empties the set takes the error
branch. -/
theorem C6_empty_candidate_set_witness :
    WordleSolver.guess [(wA5, 1)] Correctness.permutations [⟨wA5, pW5⟩]
      = .error () :=
  C6_empty_candidate_set [(wA5, 1)] Correctness.permutations [⟨wA5, pW5⟩]
    ⟨wA5, pW5⟩ rfl (by decide)

/-- C7. On empty history the solver returns its fixed opener regardless of
its state: `WordleSolver` returns `"crate"`, the `Naive` variant `"tares"`,
and both openers are in the (spec-modelled) bundled dictionary. -/
theorem C7_opening_word :
    (∀ (remaining : List (Word × Nat)) (patterns : List Pattern),
      WordleSolver.guess remaining patterns [] = .ok wCrate)
    ∧ (∀ remaining : List (Word × Nat), Naive.guess remaining [] = .ok wTares)
    ∧ ∀ rest : List Word,
        wCrate ∈ bundledDictionary rest ∧ wTares ∈ bundledDictionary rest := by
  refine ⟨fun remaining patterns => ?_, fun remaining => ?_, fun rest => ?_⟩
  · simp [WordleSolver.guess]
  · simp [Naive.guess]
  · simp [bundledDictionary]

/-- C8. When pruning by the last observation leaves exactly one candidate,
`WordleSolver::guess` returns that candidate's word (the scoring loop makes
the lone candidate `best` unconditionally). -/
theorem C8_singleton_candidate (remaining : List (Word × Nat))
    (patterns : List Pattern) (history : List Guess) (last : Guess)
    (w : Word) (c : Nat) (hlast : history.getLast? = some last)
    (hone : remaining.filter (fun cand => last.matches cand.1) = [(w, c)]) :
    WordleSolver.guess remaining patterns history = .ok w := by
  cases history with
  | nil => simp at hlast
  | cons a t =>
      simp only [WordleSolver.guess, List.isEmpty_cons, Bool.false_eq_true,
        if_false, hlast, hone, List.foldl_cons, List.foldl_nil, scoreStep]

/-- C8 witness: a concrete pruning to a singleton returns its word. -/
theorem C8_singleton_candidate_witness :
    WordleSolver.guess [(wA5, 1), (wB5, 1)] Correctness.permutations
      [⟨wA5, pC5⟩] = .ok wA5 :=
  C8_singleton_candidate [(wA5, 1), (wB5, 1)] Correctness.permutations
    [⟨wA5, pC5⟩] ⟨wA5, pC5⟩ wA5 1 rfl (by decide)

/-! ## The game driver -/

lemma play_first_turn {σ : Type} (dict : List Word) (answer : Word)
    (step : σ → List Guess → Word × σ) (s0 : σ) :
    Wordle.play dict answer step s0 =
      (if (step s0 []).1 = answer then .ok (some 1)
       else if (step s0 []).1 ∈ dict then
         Wordle.playFrom dict answer step 31 2 (step s0 []).2
           [⟨(step s0 []).1, Correctness.compute answer (step s0 []).1⟩]
       else .error 1) := rfl

/-- C10. In `Wordle::play` the equality check against the answer precedes the
dictionary-membership assertion: a first guess equal to the answer wins even
when the answer is not in the dictionary, while a non-winning first guess
outside the dictionary trips the assertion (modelled `.error`). -/
theorem C10_equality_checked_before_validation :
    (∀ (σ : Type) (dict : List Word) (answer : Word)
        (step : σ → List Guess → Word × σ) (s0 : σ),
      answer ∉ dict → (step s0 []).1 = answer →
      Wordle.play dict answer step s0 = .ok (some 1))
    ∧ (∀ (σ : Type) (dict : List Word) (answer : Word)
        (step : σ → List Guess → Word × σ) (s0 : σ),
      (step s0 []).1 ≠ answer → (step s0 []).1 ∉ dict →
      Wordle.play dict answer step s0 = .error 1) := by
  constructor
  · intro σ dict answer step s0 _ hfirst
    rw [play_first_turn, if_pos hfirst]
  · intro σ dict answer step s0 hne hnotin
    rw [play_first_turn, if_neg hne, if_neg hnotin]

/-- C10 witness: with an empty dictionary, guessing the answer wins turn 1;
guessing a different out-of-dictionary word trips the assertion. -/
theorem C10_equality_checked_before_validation_witness :
    Wordle.play ([] : List Word) wA5 (fun (s : Unit) _ => (wA5, s)) ()
        = .ok (some 1)
    ∧ Wordle.play ([] : List Word) wB5 (fun (s : Unit) _ => (wA5, s)) ()
        = .error 1 :=
  ⟨C10_equality_checked_before_validation.1 Unit [] wA5
      (fun s _ => (wA5, s)) () (by simp) rfl,
   C10_equality_checked_before_validation.2 Unit [] wB5
      (fun s _ => (wA5, s)) () (by decide) (by simp)⟩

/-! ## Consumption of answer positions (C9) -/

lemma consumed_card_pass1 (a g : Word) (x : Nat) :
    (Finset.univ.filter fun i =>
        g i = x ∧ (Correctness.pass1 a g).1 i ≠ Correctness.Wrong).card
      = (Finset.univ.filter fun j =>
          a j = x ∧ (Correctness.pass1 a g).2 j = true).card := by
  congr 1
  ext i
  simp only [Finset.mem_filter, Finset.mem_univ, true_and, Correctness.pass1]
  by_cases h : a i = g i
  · simp [h]
  · simp [h]

lemma consumed_card_step (a g : Word)
    (st : (Fin 5 → Correctness) × (Fin 5 → Bool)) (i0 : Fin 5)
    (hst : ∀ x : Nat,
      (Finset.univ.filter fun i => g i = x ∧ st.1 i ≠ Correctness.Wrong).card
        ≤ (Finset.univ.filter fun j => a j = x ∧ st.2 j = true).card) :
    ∀ x : Nat,
      (Finset.univ.filter fun i =>
          g i = x ∧ (Correctness.pass2Step a g st i0).1 i ≠ Correctness.Wrong).card
        ≤ (Finset.univ.filter fun j =>
            a j = x ∧ (Correctness.pass2Step a g st i0).2 j = true).card := by
  intro x
  unfold Correctness.pass2Step
  by_cases hC : st.1 i0 = Correctness.Correct
  · rw [if_pos hC]; exact hst x
  · rw [if_neg hC]
    cases hfind : Correctness.findUnused a (g i0) st.2 with
    | none => exact hst x
    | some j =>
      have hfind' : (List.finRange 5).find?
          (fun j' => decide (a j' = g i0) && !st.2 j') = some j := hfind
      have hpred := List.find?_some hfind'
      obtain ⟨haj, hused⟩ : a j = g i0 ∧ st.2 j = false := by simpa using hpred
      simp only
      by_cases hx : g i0 = x
      · have hB : (Finset.univ.filter fun j' =>
            a j' = x ∧ Function.update st.2 j true j' = true)
              = insert j (Finset.univ.filter fun j' => a j' = x ∧ st.2 j' = true) := by
          ext j'
          by_cases hj' : j' = j
          · subst hj'
            simp [Function.update_same, haj, hx]
          · simp [Function.update_noteq hj', hj']
        have hjB : j ∉ (Finset.univ.filter fun j' => a j' = x ∧ st.2 j' = true) := by
          simp [hused]
        have hA : (Finset.univ.filter fun i =>
            g i = x ∧ Function.update st.1 i0 Correctness.Misplaced i ≠ Correctness.Wrong)
              ⊆ insert i0 (Finset.univ.filter fun i =>
                  g i = x ∧ st.1 i ≠ Correctness.Wrong) := by
          intro i hi
          by_cases hii : i = i0
          · subst hii; exact Finset.mem_insert_self i _
          · rw [Finset.mem_filter] at hi
            rw [Function.update_noteq hii] at hi
            exact Finset.mem_insert_of_mem (Finset.mem_filter.mpr hi)
        calc (Finset.univ.filter fun i =>
            g i = x ∧ Function.update st.1 i0 Correctness.Misplaced i ≠ Correctness.Wrong).card
            ≤ (insert i0 (Finset.univ.filter fun i =>
                g i = x ∧ st.1 i ≠ Correctness.Wrong)).card := Finset.card_le_card hA
          _ ≤ (Finset.univ.filter fun i =>
                g i = x ∧ st.1 i ≠ Correctness.Wrong).card + 1 := Finset.card_insert_le _ _
          _ ≤ (Finset.univ.filter fun j' => a j' = x ∧ st.2 j' = true).card + 1 :=
              Nat.add_le_add_right (hst x) 1
          _ = (insert j (Finset.univ.filter fun j' => a j' = x ∧ st.2 j' = true)).card :=
              (Finset.card_insert_of_not_mem hjB).symm
          _ = (Finset.univ.filter fun j' =>
                a j' = x ∧ Function.update st.2 j true j' = true).card := by rw [hB]
      · have hA : (Finset.univ.filter fun i =>
            g i = x ∧ Function.update st.1 i0 Correctness.Misplaced i ≠ Correctness.Wrong)
              = (Finset.univ.filter fun i => g i = x ∧ st.1 i ≠ Correctness.Wrong) := by
          ext i
          by_cases hii : i = i0
          · subst hii; simp [hx]
          · rw [Finset.mem_filter, Finset.mem_filter, Function.update_noteq hii]
        have hB : (Finset.univ.filter fun j' =>
            a j' = x ∧ Function.update st.2 j true j' = true)
              = (Finset.univ.filter fun j' => a j' = x ∧ st.2 j' = true) := by
          ext j'
          by_cases hj' : j' = j
          · subst hj'
            have : a j' ≠ x := by rw [haj]; exact hx
            simp [this]
          · rw [Finset.mem_filter, Finset.mem_filter, Function.update_noteq hj']
        rw [hA, hB]
        exact hst x

lemma consumed_card_foldl (a g : Word) (l : List (Fin 5))
    (st : (Fin 5 → Correctness) × (Fin 5 → Bool))
    (hst : ∀ x : Nat,
      (Finset.univ.filter fun i => g i = x ∧ st.1 i ≠ Correctness.Wrong).card
        ≤ (Finset.univ.filter fun j => a j = x ∧ st.2 j = true).card) :
    ∀ x : Nat,
      (Finset.univ.filter fun i =>
          g i = x ∧ (l.foldl (Correctness.pass2Step a g) st).1 i ≠ Correctness.Wrong).card
        ≤ (Finset.univ.filter fun j =>
            a j = x ∧ (l.foldl (Correctness.pass2Step a g) st).2 j = true).card := by
  induction l generalizing st with
  | nil => exact hst
  | cons y ys ih =>
      exact ih (Correctness.pass2Step a g st y) (consumed_card_step a g st y hst)

/-- C9. Each answer position is consumed by at most one green or yellow
verdict: for any byte `x`, the guess positions holding `x` judged Correct or
Misplaced never outnumber the answer positions holding `x`. -/
theorem C9_consumption_bound (a g : Word) (x : Nat) :
    (Finset.univ.filter fun i => g i = x ∧
        (Correctness.compute a g i = Correctness.Correct ∨
         Correctness.compute a g i = Correctness.Misplaced)).card
      ≤ (Finset.univ.filter fun j => a j = x).card := by
  have hrw : (Finset.univ.filter fun i => g i = x ∧
      (Correctness.compute a g i = Correctness.Correct ∨
       Correctness.compute a g i = Correctness.Misplaced))
        = (Finset.univ.filter fun i => g i = x ∧
            Correctness.compute a g i ≠ Correctness.Wrong) := by
    ext i
    rw [Finset.mem_filter, Finset.mem_filter]
    constructor
    · rintro ⟨hu, hg, hC | hM⟩
      · exact ⟨hu, hg, by rw [hC]; exact fun h => absurd h (by decide)⟩
      · exact ⟨hu, hg, by rw [hM]; exact fun h => absurd h (by decide)⟩
    · rintro ⟨hu, hg, hW⟩
      refine ⟨hu, hg, ?_⟩
      cases h : Correctness.compute a g i
      · exact Or.inl rfl
      · exact Or.inr rfl
      · exact absurd h hW
  rw [hrw]
  have h1 := consumed_card_foldl a g (List.finRange 5) (Correctness.pass1 a g)
    (fun y => (consumed_card_pass1 a g y).le) x
  have h2 : (Finset.univ.filter fun j => a j = x ∧
      ((List.finRange 5).foldl (Correctness.pass2Step a g)
        (Correctness.pass1 a g)).2 j = true).card
        ≤ (Finset.univ.filter fun j => a j = x).card := by
    apply Finset.card_le_card
    intro j hj
    rw [Finset.mem_filter] at hj ⊢
    exact ⟨hj.1, hj.2.1⟩
  exact le_trans h1 h2

/-! ## Characterisation of `Wordle::play` (C5) -/

lemma playFrom_succ {σ : Type} (dict : List Word) (answer : Word)
    (step : σ → List Guess → Word × σ) (fuel i : Nat) (s : σ)
    (hist : List Guess) :
    Wordle.playFrom dict answer step (fuel + 1) i s hist =
      (if (step s hist).1 = answer then .ok (some i)
       else if (step s hist).1 ∈ dict then
         Wordle.playFrom dict answer step fuel (i + 1) (step s hist).2
           (hist ++ [⟨(step s hist).1, Correctness.compute answer (step s hist).1⟩])
       else .error i) := rfl

lemma range'_cons (s n : Nat) : List.range' s (n + 1) = s :: List.range' (s + 1) n := rfl

lemma find?_range'_eq_some (p : Nat → Bool) :
    ∀ (n s i : Nat), ((List.range' s n).find? p = some i ↔
      (s ≤ i ∧ i < s + n ∧ p i = true ∧ ∀ k, s ≤ k → k < i → p k = false)) := by
  intro n
  induction n with
  | zero =>
      intro s i
      constructor
      · intro h; simp [List.range'] at h
      · rintro ⟨h1, h2, _, _⟩; omega
  | succ m ih =>
      intro s i
      rw [range'_cons, List.find?_cons]
      by_cases hp : p s
      · rw [hp]
        constructor
        · intro h
          have hsi : s = i := by simpa using h
          subst hsi
          exact ⟨le_refl s, by omega, hp, fun k hk1 hk2 => absurd (lt_of_le_of_lt hk1 hk2) (lt_irrefl s)⟩
        · rintro ⟨h1, h2, h3, h4⟩
          by_cases hsi : s = i
          · rw [hsi]
          · have : p s = false := h4 s (le_refl s) (by omega)
            rw [hp] at this
            exact absurd this (by simp)
      · have hp' : p s = false := by simpa using hp
        rw [hp']
        rw [ih (s + 1) i]
        constructor
        · rintro ⟨h1, h2, h3, h4⟩
          refine ⟨by omega, by omega, h3, fun k hk1 hk2 => ?_⟩
          by_cases hks : k = s
          · rw [hks]; exact hp'
          · exact h4 k (by omega) hk2
        · rintro ⟨h1, h2, h3, h4⟩
          have hsi : s ≠ i := by
            intro hsi; rw [← hsi] at h3; rw [hp'] at h3; exact absurd h3 (by simp)
          exact ⟨by omega, by omega, h3, fun k hk1 hk2 => h4 k (by omega) hk2⟩

lemma playFrom_run {σ : Type} (dict : List Word) (answer : Word)
    (step : σ → List Guess → Word × σ) (s0 : σ)
    (hvalid : ∀ (s : σ) (h : List Guess), (step s h).1 ∈ dict ∨ (step s h).1 = answer) :
    ∀ (fuel i : Nat), 1 ≤ i →
      Wordle.playFrom dict answer step fuel i
          (runState answer step s0 (i - 1)).1 (runState answer step s0 (i - 1)).2
        = .ok ((List.range' i fuel).find?
            (fun k => decide (nthGuess answer step s0 k = answer))) := by
  intro fuel
  induction fuel with
  | zero =>
      intro i _
      rw [show List.range' i 0 = [] from rfl]
      rfl
  | succ m ih =>
      intro i hi
      rw [playFrom_succ, range'_cons, List.find?_cons]
      have hnth : (step (runState answer step s0 (i - 1)).1
          (runState answer step s0 (i - 1)).2).1 = nthGuess answer step s0 i := rfl
      by_cases hw : nthGuess answer step s0 i = answer
      · rw [hnth, if_pos hw]
        have : decide (nthGuess answer step s0 i = answer) = true := by simpa using hw
        rw [this]
      · rw [hnth, if_neg hw]
        have hmem : nthGuess answer step s0 i ∈ dict := by
          rcases hvalid (runState answer step s0 (i - 1)).1
            (runState answer step s0 (i - 1)).2 with h | h
          · exact hnth ▸ h
          · exact absurd (hnth ▸ h) hw
        rw [if_pos hmem]
        have hdec : decide (nthGuess answer step s0 i = answer) = false := by
          simpa using hw
        rw [hdec]
        have hrun : runState answer step s0 i
            = ((step (runState answer step s0 (i - 1)).1
                  (runState answer step s0 (i - 1)).2).2,
               (runState answer step s0 (i - 1)).2 ++
                 [⟨(step (runState answer step s0 (i - 1)).1
                      (runState answer step s0 (i - 1)).2).1,
                   Correctness.compute answer
                     (step (runState answer step s0 (i - 1)).1
                        (runState answer step s0 (i - 1)).2).1⟩]) := by
          conv_lhs => rw [show i = (i - 1) + 1 by omega]
          rfl
        have h1 := ih (i + 1) (by omega)
        rw [show i + 1 - 1 = i from rfl] at h1
        rw [hrun] at h1
        rw [hnth] at h1
        exact h1

/-- C5 (amended). Provided every guess the guesser emits is in the dictionary
or equals the answer (so the `assert!` never fires), `Wordle::play` returns
`Some i` exactly when the guesser's `i`-th truthful-run guess is the first
one equal to the answer with `1 ≤ i ≤ 32`, and `None` exactly when none of
the 32 guesses equals the answer. -/
theorem C5_play_characterization {σ : Type} (dict : List Word) (answer : Word)
    (step : σ → List Guess → Word × σ) (s0 : σ)
    (hans : answer ∈ dict)
    (hvalid : ∀ (s : σ) (h : List Guess), (step s h).1 ∈ dict ∨ (step s h).1 = answer) :
    (∀ i : Nat, Wordle.play dict answer step s0 = .ok (some i) ↔
      (1 ≤ i ∧ i ≤ 32 ∧ nthGuess answer step s0 i = answer ∧
       ∀ k, 1 ≤ k → k < i → nthGuess answer step s0 k ≠ answer))
    ∧ (Wordle.play dict answer step s0 = .ok none ↔
       ∀ k, 1 ≤ k → k ≤ 32 → nthGuess answer step s0 k ≠ answer) := by
  have hplay : Wordle.play dict answer step s0
      = .ok ((List.range' 1 32).find?
          (fun k => decide (nthGuess answer step s0 k = answer))) :=
    playFrom_run dict answer step s0 hvalid 32 1 (le_refl 1)
  constructor
  · intro i
    rw [hplay]
    simp only [Except.ok.injEq]
    rw [find?_range'_eq_some]
    constructor
    · rintro ⟨h1, h2, h3, h4⟩
      exact ⟨h1, by omega, by simpa using h3,
        fun k hk1 hk2 => by simpa using h4 k hk1 hk2⟩
    · rintro ⟨h1, h2, h3, h4⟩
      exact ⟨h1, by omega, by simpa using h3,
        fun k hk1 hk2 => by simpa using h4 k hk1 hk2⟩
  · rw [hplay]
    simp only [Except.ok.injEq]
    constructor
    · intro h k hk1 hk2
      rw [List.find?_eq_none] at h
      have hmem : k ∈ List.range' 1 32 := List.mem_range'_1.mpr ⟨hk1, by omega⟩
      simpa using h k hmem
    · intro h
      rw [List.find?_eq_none]
      intro k hmem
      have hk := List.mem_range'_1.mp hmem
      simpa using h k hk.1 (by omega)

/-- C5 counterexample to the claim as stated: answer `"aaaaa"` is in the
dictionary `{"aaaaa"}` and the guesser's guesses are `"bbbbb"` then
`"aaaaa"`, so the smallest `i` with the `i`-th guess equal to the answer is
2 — yet `play` does not return `Some 2`: the out-of-dictionary first guess
trips the assertion (`.error 1`). -/
theorem C5_play_counterexample :
    Wordle.play [wA5] wA5
        (fun (s : Nat) _ => (if s = 0 then wB5 else wA5, s + 1)) 0 = .error 1
    ∧ Wordle.play [wA5] wA5
        (fun (s : Nat) _ => (if s = 0 then wB5 else wA5, s + 1)) 0 ≠ .ok (some 2)
    ∧ nthGuess wA5 (fun (s : Nat) _ => (if s = 0 then wB5 else wA5, s + 1)) 0 2 = wA5
    ∧ nthGuess wA5 (fun (s : Nat) _ => (if s = 0 then wB5 else wA5, s + 1)) 0 1 ≠ wA5
    ∧ wA5 ∈ [wA5] := by
  have h1 : Wordle.play [wA5] wA5
      (fun (s : Nat) _ => (if s = 0 then wB5 else wA5, s + 1)) 0 = .error 1 := by
    rw [play_first_turn]
    rw [if_neg (by decide), if_neg (by decide)]
  refine ⟨h1, ?_, by decide, by decide, by simp⟩
  rw [h1]
  intro h
  exact Except.noConfusion h

/-- C5 witness for the amended characterisation at a concrete input. -/
theorem C5_play_characterization_witness :
    Wordle.play [wA5] wA5 (fun (s : Unit) _ => (wA5, s)) () = .ok (some 1) :=
  ((C5_play_characterization [wA5] wA5 (fun s _ => (wA5, s)) () (by simp)
      (fun _ _ => Or.inr rfl)).1 1).mpr
    ⟨le_refl 1, by omega, by decide, fun k hk1 hk2 => by omega⟩

/-! ## The shared-pattern-list optimisation (C2) -/

lemma logb_two_one_quarter : Real.logb 2 ((1:ℝ)/4) = -2 := by
  rw [show (1:ℝ)/4 = ((2:ℝ)^(2:ℕ))⁻¹ by norm_num]
  rw [Real.logb_inv, Real.logb_pow]
  rw [Real.logb_self_eq_one (by norm_num : (1:ℝ) < 2)]
  norm_num

lemma logb_two_one_half : Real.logb 2 ((1:ℝ)/2) = -1 := by
  rw [show (1:ℝ)/2 = ((2:ℝ))⁻¹ by norm_num]
  rw [Real.logb_inv]
  rw [Real.logb_self_eq_one (by norm_num : (1:ℝ) < 2)]

lemma sumPhi_cons (rem : List (Word × Nat)) (N : Nat) (w : Word) (p : Pattern)
    (ps : List Pattern) :
    sumPhi rem N w (p :: ps) = phi rem N w p + sumPhi rem N w ps := rfl

lemma wordScore_eq (rem : List (Word × Nat)) (N : Nat) (w : Word) :
    ∀ ps : List Pattern,
      wordScore rem N w ps
        = (sumPhi rem N w (ps.filter (nzb rem w)), ps.filter (nzb rem w)) := by
  intro ps
  induction ps with
  | nil => rfl
  | cons p ps ih =>
      simp only [wordScore, List.filter_cons]
      by_cases ht : inPatternTotal rem w p = 0
      · have hnz : nzb rem w p = false := by simp [nzb, ht]
        rw [if_pos ht, ih, hnz]
        simp
      · have hnz : nzb rem w p = true := by simp [nzb, ht]
        rw [if_neg ht, ih, hnz]
        simp [sumPhi_cons, phi]

lemma refSum_eq (rem : List (Word × Nat)) (N : Nat) (w : Word) :
    ∀ ps : List Pattern,
      refSum rem N w ps = sumPhi rem N w (ps.filter (nzb rem w)) := by
  intro ps
  induction ps with
  | nil => rfl
  | cons p ps ih =>
      simp only [refSum, List.filter_cons]
      by_cases ht : inPatternTotal rem w p = 0
      · have hnz : nzb rem w p = false := by simp [nzb, ht]
        rw [if_pos ht, ih, hnz]
        simp
      · have hnz : nzb rem w p = true := by simp [nzb, ht]
        rw [if_neg ht, ih, hnz]
        simp [sumPhi_cons, phi]

lemma scoreStep_none (rem : List (Word × Nat)) (N : Nat) (P : List Pattern)
    (w : Word) (c : Nat) :
    scoreStep rem N (none, P) (w, c)
      = (some ⟨w, -(sumPhi rem N w (P.filter (nzb rem w))) * ((c : ℝ)/(N : ℝ))⟩,
         P.filter (nzb rem w)) := by
  simp only [scoreStep, wordScore_eq]

lemma scoreStep_some (rem : List (Word × Nat)) (N : Nat) (P : List Pattern)
    (w : Word) (c : Nat) (b : Candidate) :
    scoreStep rem N (some b, P) (w, c)
      = (if -(sumPhi rem N w (P.filter (nzb rem w))) * ((c : ℝ)/(N : ℝ)) > b.goodness
         then some ⟨w, -(sumPhi rem N w (P.filter (nzb rem w))) * ((c : ℝ)/(N : ℝ))⟩
         else some b,
         P.filter (nzb rem w)) := by
  simp only [scoreStep, wordScore_eq]
  by_cases h : -(sumPhi rem N w (P.filter (nzb rem w))) * ((c : ℝ)/(N : ℝ)) > b.goodness
  · rw [if_pos h, if_pos h]
  · rw [if_neg h, if_neg h]

lemma refStep_none (rem : List (Word × Nat)) (N : Nat) (w : Word) (c : Nat) :
    refStep rem N none (w, c)
      = some ⟨w, -(refSum rem N w Correctness.permutations) * ((c : ℝ)/(N : ℝ))⟩ := rfl

lemma refStep_some (rem : List (Word × Nat)) (N : Nat) (w : Word) (c : Nat)
    (b : Candidate) :
    refStep rem N (some b) (w, c)
      = (if -(refSum rem N w Correctness.permutations) * ((c : ℝ)/(N : ℝ)) > b.goodness
         then some ⟨w, -(refSum rem N w Correctness.permutations) * ((c : ℝ)/(N : ℝ))⟩
         else some b) := rfl

lemma scoreFold_eq_refFold (rem : List (Word × Nat)) (N : Nat)
    (hsupp : ∀ c1 ∈ rem, ∀ c2 ∈ rem, ∀ p : Pattern,
      (inPatternTotal rem c1.1 p = 0 ↔ inPatternTotal rem c2.1 p = 0)) :
    ∀ (words : List (Word × Nat)) (P : List Pattern) (acc : Option Candidate),
      (∀ c ∈ words, c ∈ rem) →
      (∀ c ∈ rem, P.filter (nzb rem c.1)
          = Correctness.permutations.filter (nzb rem c.1)) →
      (words.foldl (scoreStep rem N) (acc, P)).1
        = words.foldl (refStep rem N) acc := by
  intro words
  induction words with
  | nil => intro P acc _ _; rfl
  | cons cand cs ih =>
      intro P acc hsub hinv
      have hcand : cand ∈ rem := hsub cand (List.mem_cons_self cand cs)
      obtain ⟨w, c⟩ := cand
      have hnzb : ∀ c' ∈ rem, nzb rem w = nzb rem c'.1 := by
        intro c' hc'
        funext p
        by_cases h : inPatternTotal rem w p = 0
        · have h2 : inPatternTotal rem c'.1 p = 0 := (hsupp (w, c) hcand c' hc' p).mp h
          simp [nzb, h, h2]
        · have h2 : ¬inPatternTotal rem c'.1 p = 0 :=
            fun hh => h ((hsupp (w, c) hcand c' hc' p).mpr hh)
          simp [nzb, h, h2]
      have hP : P.filter (nzb rem w) = Correctness.permutations.filter (nzb rem w) :=
        hinv (w, c) hcand
      have hsub' : ∀ c' ∈ cs, c' ∈ rem :=
        fun c' hc' => hsub c' (List.mem_cons_of_mem _ hc')
      have hinv' : ∀ c' ∈ rem,
          (Correctness.permutations.filter (nzb rem w)).filter (nzb rem c'.1)
            = Correctness.permutations.filter (nzb rem c'.1) := by
        intro c' hc'
        rw [← hnzb c' hc']
        rw [List.filter_filter]
        congr 1
        funext q
        exact Bool.and_self (nzb rem w q)
      cases acc with
      | none =>
          rw [List.foldl_cons, List.foldl_cons, scoreStep_none, refStep_none]
          rw [hP, ← refSum_eq]
          exact ih (Correctness.permutations.filter (nzb rem w)) _ hsub' hinv'
      | some b =>
          rw [List.foldl_cons, List.foldl_cons, scoreStep_some, refStep_some]
          rw [hP, ← refSum_eq]
          exact ih (Correctness.permutations.filter (nzb rem w)) _ hsub' hinv'

/-- C2 (amended). The destructive shared-pattern-list retention does not
change the chosen word *when all pruned candidates have the same set of
non-empty patterns* (so no pattern a later word needs is dropped while
scoring an earlier one); in general it can change the chosen word, see the
counterexample. -/
theorem C2_pattern_retention_refinement (remaining : List (Word × Nat))
    (history : List Guess) (last : Guess)
    (hlast : history.getLast? = some last)
    (hsupp : ∀ c1 ∈ remaining.filter (fun cand => last.matches cand.1),
             ∀ c2 ∈ remaining.filter (fun cand => last.matches cand.1),
             ∀ p : Pattern,
               (inPatternTotal (remaining.filter fun cand => last.matches cand.1) c1.1 p = 0 ↔
                inPatternTotal (remaining.filter fun cand => last.matches cand.1) c2.1 p = 0)) :
    WordleSolver.guess remaining Correctness.permutations history
      = refGuess remaining history := by
  cases history with
  | nil => simp at hlast
  | cons a t =>
      simp only [WordleSolver.guess, refGuess, List.isEmpty_cons, Bool.false_eq_true,
        if_false, hlast]
      rw [scoreFold_eq_refFold _ _ hsupp _ _ _ (fun c hc => hc) (fun c _ => rfl)]

set_option maxRecDepth 4000 in
/-- C2 witness: with two candidates of equal pattern support the optimised
and reference solvers agree. -/
theorem C2_pattern_retention_refinement_witness :
    WordleSolver.guess [(wA5, 1), (wB5, 1)] Correctness.permutations [⟨wZ5, pW5⟩]
      = refGuess [(wA5, 1), (wB5, 1)] [⟨wZ5, pW5⟩] :=
  C2_pattern_retention_refinement [(wA5, 1), (wB5, 1)] [⟨wZ5, pW5⟩] ⟨wZ5, pW5⟩ rfl
    (by decide)

lemma sumPhi_nil (rem : List (Word × Nat)) (N : Nat) (w : Word) :
    sumPhi rem N w [] = 0 := rfl

lemma phi_eval_one (rem : List (Word × Nat)) (w : Word) (p : Pattern)
    (ht : inPatternTotal rem w p = 1) : phi rem 4 w p = -(1/2) := by
  rw [phi, ht]
  rw [show ((1:ℕ):ℝ) / ((4:ℕ):ℝ) = (1:ℝ)/4 by norm_num]
  rw [logb_two_one_quarter]
  norm_num

lemma phi_eval_two (rem : List (Word × Nat)) (w : Word) (p : Pattern)
    (ht : inPatternTotal rem w p = 2) : phi rem 4 w p = -(1/2) := by
  rw [phi, ht]
  rw [show ((2:ℕ):ℝ) / ((4:ℕ):ℝ) = (1:ℝ)/2 by norm_num]
  rw [logb_two_one_half]
  norm_num

lemma guess_eval (remaining : List (Word × Nat)) (patterns : List Pattern)
    (history : List Guess) (last : Guess) (hlast : history.getLast? = some last) :
    WordleSolver.guess remaining patterns history
      = (match ((remaining.filter fun cand => last.matches cand.1).foldl
            (scoreStep (remaining.filter fun cand => last.matches cand.1)
              (((remaining.filter fun cand => last.matches cand.1).map Prod.snd).sum))
            (none, patterns)).1 with
         | some c => Except.ok c.word
         | none => Except.error ()) := by
  cases history with
  | nil => simp at hlast
  | cons a t =>
      simp only [WordleSolver.guess, List.isEmpty_cons, Bool.false_eq_true,
        if_false, hlast]

lemma refGuess_eval (remaining : List (Word × Nat))
    (history : List Guess) (last : Guess) (hlast : history.getLast? = some last) :
    refGuess remaining history
      = (match (remaining.filter fun cand => last.matches cand.1).foldl
            (refStep (remaining.filter fun cand => last.matches cand.1)
              (((remaining.filter fun cand => last.matches cand.1).map Prod.snd).sum))
            none with
         | some c => Except.ok c.word
         | none => Except.error ()) := by
  cases history with
  | nil => simp at hlast
  | cons a t =>
      simp only [refGuess, List.isEmpty_cons, Bool.false_eq_true, if_false, hlast]

set_option maxRecDepth 8000 in
/-- C2 counterexample: on candidate set {aaaaa↦1, bbbbb↦1, ababa↦2} (all
admitted by the last observation) the optimised solver scores `bbbbb` and
`ababa` against a pattern list already pruned while scoring earlier words,
deflating their scores, and returns `aaaaa`; the reference semantics
(all 243 patterns for every word) returns `ababa`. -/
theorem C2_pattern_retention_counterexample :
    WordleSolver.guess exRemaining Correctness.permutations exHistory
      ≠ refGuess exRemaining exHistory := by
  have hREM : exRemaining.filter (fun cand => (Guess.mk wZ5 pW5).matches cand.1)
      = [(wA5, 1), (wB5, 1), (wABABA, 2)] := by decide
  have hN : (([(wA5, 1), (wB5, 1), (wABABA, 2)] : List (Word × Nat)).map
      Prod.snd).sum = 4 := by decide
  have hFA : Correctness.permutations.filter
      (nzb [(wA5, 1), (wB5, 1), (wABABA, 2)] wA5) = [pC5, pCWCWC, pW5] := by decide
  have hFB : Correctness.permutations.filter
      (nzb [(wA5, 1), (wB5, 1), (wABABA, 2)] wB5) = [pC5, pWCWCW, pW5] := by decide
  have hFC : Correctness.permutations.filter
      (nzb [(wA5, 1), (wB5, 1), (wABABA, 2)] wABABA) = [pC5, pCWCWC, pWCWCW] := by
    decide
  have hFB1 : ([pC5, pCWCWC, pW5] : List Pattern).filter
      (nzb [(wA5, 1), (wB5, 1), (wABABA, 2)] wB5) = [pC5, pW5] := by decide
  have hFC1 : ([pC5, pW5] : List Pattern).filter
      (nzb [(wA5, 1), (wB5, 1), (wABABA, 2)] wABABA) = [pC5] := by decide
  have hsA : sumPhi [(wA5, 1), (wB5, 1), (wABABA, 2)] 4 wA5 [pC5, pCWCWC, pW5]
      = -(3/2) := by
    rw [sumPhi_cons, sumPhi_cons, sumPhi_cons, sumPhi_nil,
      phi_eval_one _ _ _ (by decide), phi_eval_two _ _ _ (by decide),
      phi_eval_one _ _ _ (by decide)]
    norm_num
  have hsB : sumPhi [(wA5, 1), (wB5, 1), (wABABA, 2)] 4 wB5 [pC5, pWCWCW, pW5]
      = -(3/2) := by
    rw [sumPhi_cons, sumPhi_cons, sumPhi_cons, sumPhi_nil,
      phi_eval_one _ _ _ (by decide), phi_eval_two _ _ _ (by decide),
      phi_eval_one _ _ _ (by decide)]
    norm_num
  have hsC : sumPhi [(wA5, 1), (wB5, 1), (wABABA, 2)] 4 wABABA
      [pC5, pCWCWC, pWCWCW] = -(3/2) := by
    rw [sumPhi_cons, sumPhi_cons, sumPhi_cons, sumPhi_nil,
      phi_eval_two _ _ _ (by decide), phi_eval_one _ _ _ (by decide),
      phi_eval_one _ _ _ (by decide)]
    norm_num
  have hsB1 : sumPhi [(wA5, 1), (wB5, 1), (wABABA, 2)] 4 wB5 [pC5, pW5] = -1 := by
    rw [sumPhi_cons, sumPhi_cons, sumPhi_nil,
      phi_eval_one _ _ _ (by decide), phi_eval_one _ _ _ (by decide)]
    norm_num
  have hsC1 : sumPhi [(wA5, 1), (wB5, 1), (wABABA, 2)] 4 wABABA [pC5]
      = -(1/2) := by
    rw [sumPhi_cons, sumPhi_nil, phi_eval_two _ _ _ (by decide)]
    norm_num
  have hstep1 : scoreStep [(wA5, 1), (wB5, 1), (wABABA, 2)] 4
      (none, Correctness.permutations) (wA5, 1)
        = (some ⟨wA5, 3/8⟩, [pC5, pCWCWC, pW5]) := by
    rw [scoreStep_none, hFA, hsA]
    norm_num
  have hstep2 : scoreStep [(wA5, 1), (wB5, 1), (wABABA, 2)] 4
      (some ⟨wA5, 3/8⟩, [pC5, pCWCWC, pW5]) (wB5, 1)
        = (some ⟨wA5, 3/8⟩, [pC5, pW5]) := by
    rw [scoreStep_some, hFB1, hsB1]
    norm_num
  have hstep3 : scoreStep [(wA5, 1), (wB5, 1), (wABABA, 2)] 4
      (some ⟨wA5, 3/8⟩, [pC5, pW5]) (wABABA, 2)
        = (some ⟨wA5, 3/8⟩, [pC5]) := by
    rw [scoreStep_some, hFC1, hsC1]
    norm_num
  have rstep1 : refStep [(wA5, 1), (wB5, 1), (wABABA, 2)] 4 none (wA5, 1)
      = some ⟨wA5, 3/8⟩ := by
    rw [refStep_none, refSum_eq, hFA, hsA]
    norm_num
  have rstep2 : refStep [(wA5, 1), (wB5, 1), (wABABA, 2)] 4 (some ⟨wA5, 3/8⟩)
      (wB5, 1) = some ⟨wA5, 3/8⟩ := by
    rw [refStep_some, refSum_eq, hFB, hsB]
    norm_num
  have rstep3 : refStep [(wA5, 1), (wB5, 1), (wABABA, 2)] 4 (some ⟨wA5, 3/8⟩)
      (wABABA, 2) = some ⟨wABABA, 3/4⟩ := by
    rw [refStep_some, refSum_eq, hFC, hsC]
    norm_num
  have himpl : WordleSolver.guess exRemaining Correctness.permutations exHistory
      = .ok wA5 := by
    rw [guess_eval exRemaining Correctness.permutations exHistory ⟨wZ5, pW5⟩ rfl,
      hREM, hN]
    rw [List.foldl_cons, hstep1, List.foldl_cons, hstep2, List.foldl_cons,
      hstep3, List.foldl_nil]
  have href : refGuess exRemaining exHistory = .ok wABABA := by
    rw [refGuess_eval exRemaining exHistory ⟨wZ5, pW5⟩ rfl, hREM, hN]
    rw [List.foldl_cons, rstep1, List.foldl_cons, rstep2, List.foldl_cons,
      rstep3, List.foldl_nil]
  rw [himpl, href]
  simp only [ne_eq, Except.ok.injEq]
  decide
